import Mathlib

/-!
Shallow embedding of the sliding-window rate limiter
(src/sampler/rate_limiter.py).

Timestamps are modelled as rationals (the Python code uses floating-point
seconds; the algorithm only compares, adds and subtracts them, so exact
rational arithmetic captures the control flow).  Token counts are integers.
The wall clock is passed explicitly: every place where the Python code reads
time.time() becomes a parameter.  Each mutating method becomes a function
from the pre-state (plus the clock readings) to the post-state, paired with
the duration it slept (0 when it did not sleep).
-/

namespace RateLimiterModel

/-- State of the limiter: the fields of the Python RateLimiter object.
deque is modelled as a list (head = left end). -/
structure RateLimiter where
  rpm_limit : Option ℤ
  tpm_limit : Option ℤ
  window_seconds : ℚ
  request_times : List ℚ
  token_usage : List (ℚ × ℤ)
deriving Repr, DecidableEq

/-- Python truthiness of an optional integer: None and 0 are falsy,
every other value is truthy.  This is how every limit check in the source
is written (if self.rpm_limit and ...). -/
def truthy : Option ℤ → Bool
  | none => false
  | some v => v != 0

/-- Sum of the token counts of a token log (sum(tokens for _, tokens in log)). -/
def tokenSum (log : List (ℚ × ℤ)) : ℤ :=
  (log.map Prod.snd).sum

/-- _clean_old_entries: pop entries from the head of each log while the head
timestamp is strictly below current_time - window_seconds. -/
def cleanOldEntries (rl : RateLimiter) (current_time : ℚ) : RateLimiter :=
  let cutoff_time := current_time - rl.window_seconds
  { rl with
    request_times := rl.request_times.dropWhile (fun t => decide (t < cutoff_time)),
    token_usage := rl.token_usage.dropWhile (fun p => decide (p.1 < cutoff_time)) }

/-- _get_current_usage: trims, then returns the post-trim state together with
the request count and the token sum inside the window. -/
def getCurrentUsage (rl : RateLimiter) (current_time : ℚ) :
    RateLimiter × ℤ × ℤ :=
  let rl' := cleanOldEntries rl current_time
  (rl', rl'.request_times.length, tokenSum rl'.token_usage)

/-- The for-loop of the TPM branch: walk the token log from the head,
accumulating freed tokens; at the first entry where the accumulated total
reaches tokens_needed, return that entry. Returns none when the loop
exhausts the log without breaking. -/
def tpmWalk : List (ℚ × ℤ) → ℤ → ℤ → Option ℚ
  | [], _, _ => none
  | (timestamp, tokens) :: rest, tokens_freed, tokens_needed =>
      let freed := tokens_freed + tokens
      if tokens_needed ≤ freed then some timestamp
      else tpmWalk rest freed tokens_needed

/-- _calculate_wait_time: trims (through _get_current_usage, so the state
changes), then folds the RPM candidate and the TPM candidate into
wait_time starting from 0, and adds 0.1 when the result is positive.
Returns the post-call state and the wait. -/
def calculateWaitTime (rl : RateLimiter) (current_time : ℚ)
    (estimated_tokens : ℤ) : RateLimiter × ℚ :=
  let rl' := cleanOldEntries rl current_time
  let current_rpm : ℤ := rl'.request_times.length
  let current_tpm : ℤ := tokenSum rl'.token_usage
  let w1 : ℚ :=
    if truthy rl.rpm_limit ∧ rl.rpm_limit.getD 0 ≤ current_rpm then
      max 0 (rl'.request_times.headI + rl.window_seconds - current_time)
    else 0
  let w2 : ℚ :=
    if truthy rl.tpm_limit ∧ rl.tpm_limit.getD 0 < current_tpm + estimated_tokens then
      match tpmWalk rl'.token_usage 0
          (current_tpm + estimated_tokens - rl.tpm_limit.getD 0) with
      | some timestamp => max w1 (timestamp + rl.window_seconds - current_time)
      | none => w1
    else w1
  (rl', if 0 < w2 then w2 + 1/10 else w2)

/-- acquire: trims at the first clock reading t0, computes the RPM wait,
sleeps when it is positive, then appends the second clock reading t1
(time.time() is read again after the sleep) to the request log.
Returns the post-state and the slept duration. -/
def acquire (rl : RateLimiter) (t0 t1 : ℚ) : RateLimiter × ℚ :=
  let rl' := cleanOldEntries rl t0
  let current_rpm : ℤ := rl'.request_times.length
  let wait_time : ℚ :=
    if truthy rl.rpm_limit ∧ rl.rpm_limit.getD 0 ≤ current_rpm then
      rl'.request_times.headI + rl.window_seconds - t0 + 1/10
    else 0
  let slept := if 0 < wait_time then wait_time else 0
  ({ rl' with request_times := rl'.request_times ++ [t1] }, slept)

/-- report_actual_usage: trims, appends (now, actual_tokens) to the token
log, and if the token sum now exceeds a truthy tpm_limit, walks the log for
the overshoot and sleeps for the computed positive wait.
Returns the post-state and the slept duration. -/
def reportActualUsage (rl : RateLimiter) (current_time : ℚ)
    (actual_tokens : ℤ) : RateLimiter × ℚ :=
  let rl' := cleanOldEntries rl current_time
  let rl'' := { rl' with
    token_usage := rl'.token_usage ++ [(current_time, actual_tokens)] }
  let slept : ℚ :=
    if truthy rl.tpm_limit then
      let current_tpm := tokenSum rl''.token_usage
      if rl.tpm_limit.getD 0 < current_tpm then
        match tpmWalk rl''.token_usage 0 (current_tpm - rl.tpm_limit.getD 0) with
        | some timestamp =>
            let wait_time := timestamp + rl.window_seconds - current_time + 1/10
            if 0 < wait_time then wait_time else 0
        | none => 0
      else 0
    else 0
  (rl'', slept)

/-- The record returned by get_current_stats. -/
structure Stats where
  current_rpm : ℤ
  rpm_limit : Option ℤ
  current_tpm : ℤ
  tpm_limit : Option ℤ
  rpm_utilization : ℚ
  tpm_utilization : ℚ
deriving Repr, DecidableEq

/-- get_current_stats: trims (through _get_current_usage) and returns the
snapshot; utilization is count/limit*100 behind a truthiness guard. -/
def getCurrentStats (rl : RateLimiter) (current_time : ℚ) :
    RateLimiter × Stats :=
  let rl' := cleanOldEntries rl current_time
  let current_rpm : ℤ := rl'.request_times.length
  let current_tpm : ℤ := tokenSum rl'.token_usage
  (rl',
   { current_rpm := current_rpm
     rpm_limit := rl.rpm_limit
     current_tpm := current_tpm
     tpm_limit := rl.tpm_limit
     rpm_utilization :=
       if truthy rl.rpm_limit then
         (current_rpm : ℚ) / (rl.rpm_limit.getD 0 : ℤ) * 100
       else 0
     tpm_utilization :=
       if truthy rl.tpm_limit then
         (current_tpm : ℚ) / (rl.tpm_limit.getD 0 : ℤ) * 100
       else 0 })

end RateLimiterModel

namespace RateLimiterModel

/-! ## Helper lemmas about trimming -/

/-- Every element surviving the head-trim of a sorted timestamp list is at
or above the cutoff. -/
lemma le_of_mem_dropWhile_sorted {c : ℚ} {l : List ℚ}
    (hs : l.Sorted (· ≤ ·)) :
    ∀ x ∈ l.dropWhile (fun t => decide (t < c)), c ≤ x := by
  induction l with
  | nil => simp
  | cons a t ih =>
    rw [List.sorted_cons] at hs
    intro x hx
    by_cases h : a < c
    · rw [List.dropWhile_cons_of_pos (by simpa using h)] at hx
      exact ih hs.2 x hx
    · rw [List.dropWhile_cons_of_neg (by simpa using h)] at hx
      rcases List.mem_cons.1 hx with rfl | hx
      · exact le_of_not_lt h
      · exact le_trans (le_of_not_lt h) (hs.1 x hx)

/-- Pair version of the previous lemma, for the token log (sorted in the
first component). -/
lemma le_of_mem_dropWhile_fst_sorted {c : ℚ} {l : List (ℚ × ℤ)}
    (hs : (l.map Prod.fst).Sorted (· ≤ ·)) :
    ∀ q ∈ l.dropWhile (fun q => decide (q.1 < c)), c ≤ q.1 := by
  induction l with
  | nil => simp
  | cons a t ih =>
    rw [List.map_cons, List.sorted_cons] at hs
    intro q hq
    by_cases h : a.1 < c
    · rw [List.dropWhile_cons_of_pos (by simpa using h)] at hq
      exact ih hs.2 q hq
    · rw [List.dropWhile_cons_of_neg (by simpa using h)] at hq
      rcases List.mem_cons.1 hq with rfl | hq
      · exact le_of_not_lt h
      · exact le_trans (le_of_not_lt h) (hs.1 q.1 (List.mem_map_of_mem Prod.fst hq))

/-- The head of a trimmed list never satisfies the trimming predicate. -/
lemma head?_dropWhile_ge {c : ℚ} (l : List ℚ) :
    ∀ x ∈ (l.dropWhile (fun t => decide (t < c))).head?, c ≤ x := by
  induction l with
  | nil => simp
  | cons a t ih =>
    intro x hx
    by_cases h : a < c
    · rw [List.dropWhile_cons_of_pos (by simpa using h)] at hx
      exact ih x hx
    · rw [List.dropWhile_cons_of_neg (by simpa using h)] at hx
      rw [List.head?_cons, Option.mem_def, Option.some.injEq] at hx
      exact hx ▸ le_of_not_lt h

/-- Pair version of the previous lemma. -/
lemma head?_dropWhile_fst_ge {c : ℚ} (l : List (ℚ × ℤ)) :
    ∀ q ∈ (l.dropWhile (fun q => decide (q.1 < c))).head?, c ≤ q.1 := by
  induction l with
  | nil => simp
  | cons a t ih =>
    intro q hq
    by_cases h : a.1 < c
    · rw [List.dropWhile_cons_of_pos (by simpa using h)] at hq
      exact ih q hq
    · rw [List.dropWhile_cons_of_neg (by simpa using h)] at hq
      rw [List.head?_cons, Option.mem_def, Option.some.injEq] at hq
      exact hq ▸ le_of_not_lt h

/-! ## C4 -/

/-- C4: for every state and clock reading, the trim removes exactly a head
segment of each log, every removed timestamp being strictly below
now - windowSeconds, while the surviving head (when present) is at or above
the cutoff; in particular an entry whose timestamp equals the cutoff is
never removed. -/
theorem cleanOldEntries_spec (rl : RateLimiter) (now : ℚ) :
    ∃ removedReq removedTok,
      rl.request_times = removedReq ++ (cleanOldEntries rl now).request_times ∧
      (∀ t ∈ removedReq, t < now - rl.window_seconds) ∧
      (∀ t ∈ (cleanOldEntries rl now).request_times.head?,
        now - rl.window_seconds ≤ t) ∧
      rl.token_usage = removedTok ++ (cleanOldEntries rl now).token_usage ∧
      (∀ q ∈ removedTok, q.1 < now - rl.window_seconds) ∧
      (∀ q ∈ (cleanOldEntries rl now).token_usage.head?,
        now - rl.window_seconds ≤ q.1) := by
  refine ⟨rl.request_times.takeWhile (fun t => decide (t < now - rl.window_seconds)),
    rl.token_usage.takeWhile (fun q => decide (q.1 < now - rl.window_seconds)),
    ?_, ?_, ?_, ?_, ?_, ?_⟩
  · exact (List.takeWhile_append_dropWhile ..).symm
  · intro t ht
    simpa using List.mem_takeWhile_imp ht
  · exact head?_dropWhile_ge rl.request_times
  · exact (List.takeWhile_append_dropWhile ..).symm
  · intro q hq
    simpa using List.mem_takeWhile_imp hq
  · exact head?_dropWhile_fst_ge rl.token_usage

/-- C4 witness: the characterization instantiated at a concrete state
holding one expired, one boundary and one fresh entry per log. -/
theorem cleanOldEntries_spec_witness :
    ∃ removedReq removedTok,
      let rl : RateLimiter := ⟨some 2, some 100, 60, [10, 40, 90], [(10, 5), (40, 7)]⟩
      rl.request_times = removedReq ++ (cleanOldEntries rl 100).request_times ∧
      (∀ t ∈ removedReq, t < 100 - rl.window_seconds) ∧
      (∀ t ∈ (cleanOldEntries rl 100).request_times.head?,
        100 - rl.window_seconds ≤ t) ∧
      rl.token_usage = removedTok ++ (cleanOldEntries rl 100).token_usage ∧
      (∀ q ∈ removedTok, q.1 < 100 - rl.window_seconds) ∧
      (∀ q ∈ (cleanOldEntries rl 100).token_usage.head?,
        100 - rl.window_seconds ≤ q.1) :=
  cleanOldEntries_spec ⟨some 2, some 100, 60, [10, 40, 90], [(10, 5), (40, 7)]⟩ 100

/-! ## C7 -/

/-- State used to exhibit the mutation performed by calculateWaitTime. -/
def exPure : RateLimiter := ⟨none, none, 60, [0], []⟩

/-- C7 counterexample: calculateWaitTime is not mutation-free; on a state
holding one expired request timestamp it shrinks the request log, so the
claim that it leaves both logs unchanged fails at this input. -/
theorem calculateWaitTime_mutates_counterexample :
    (calculateWaitTime exPure 100 0).1.request_times ≠ exPure.request_times := by
  norm_num [calculateWaitTime, cleanOldEntries, exPure, List.dropWhile]

/-- C7 amended: the only mutation calculateWaitTime performs is the trim:
the post-call state is exactly cleanOldEntries of the pre-call state, the
limits and the window are unchanged, and whenever no entry of either log is
expired the state is left fully unchanged; the returned wait is a function
of the current state and the inputs only. -/
theorem calculateWaitTime_state_eq_clean (rl : RateLimiter) (now : ℚ) (est : ℤ) :
    (calculateWaitTime rl now est).1 = cleanOldEntries rl now ∧
    (calculateWaitTime rl now est).1.rpm_limit = rl.rpm_limit ∧
    (calculateWaitTime rl now est).1.tpm_limit = rl.tpm_limit ∧
    (calculateWaitTime rl now est).1.window_seconds = rl.window_seconds ∧
    ((∀ t ∈ rl.request_times, ¬ t < now - rl.window_seconds) →
      (∀ q ∈ rl.token_usage, ¬ q.1 < now - rl.window_seconds) →
      (calculateWaitTime rl now est).1 = rl) := by
  refine ⟨rfl, rfl, rfl, rfl, fun hreq htok => ?_⟩
  have h1 : rl.request_times.dropWhile
      (fun t => decide (t < now - rl.window_seconds)) = rl.request_times := by
    cases h : rl.request_times with
    | nil => rfl
    | cons a t =>
      rw [List.dropWhile_cons_of_neg]
      simpa using hreq a (h ▸ List.mem_cons_self a t)
  have h2 : rl.token_usage.dropWhile
      (fun q => decide (q.1 < now - rl.window_seconds)) = rl.token_usage := by
    cases h : rl.token_usage with
    | nil => rfl
    | cons a t =>
      rw [List.dropWhile_cons_of_neg]
      simpa using htok a (h ▸ List.mem_cons_self a t)
  show cleanOldEntries rl now = rl
  rw [cleanOldEntries]
  cases rl
  simp_all

/-- C7 amended witness: on a state whose entries are all inside the window
the call leaves the state unchanged. -/
theorem calculateWaitTime_state_eq_clean_witness :
    (calculateWaitTime ⟨none, none, 60, [50], [(55, 3)]⟩ 100 0).1
      = ⟨none, none, 60, [50], [(55, 3)]⟩ :=
  (calculateWaitTime_state_eq_clean ⟨none, none, 60, [50], [(55, 3)]⟩ 100 0).2.2.2.2
    (by norm_num) (by norm_num)

end RateLimiterModel

namespace RateLimiterModel

/-! ## C8 -/

/-- C8: with rpm_limit unset acquire never sleeps, with tpm_limit unset
reportActualUsage never sleeps, and each utilization reported by
getCurrentStats is 0 when its limit is unset and count/limit*100 when the
limit is set (in the exact-arithmetic model division by a zero limit
denotes 0, which coincides with the guard in the code). -/
theorem unset_limit_passthrough (rl : RateLimiter) (t0 t1 t now : ℚ)
    (tok : ℤ) :
    (acquire { rl with rpm_limit := none } t0 t1).2 = 0 ∧
    (reportActualUsage { rl with tpm_limit := none } now tok).2 = 0 ∧
    (getCurrentStats rl t).2.rpm_utilization =
      (match rl.rpm_limit with
       | none => 0
       | some l => (((cleanOldEntries rl t).request_times.length : ℤ) : ℚ)
           / (l : ℚ) * 100) ∧
    (getCurrentStats rl t).2.tpm_utilization =
      (match rl.tpm_limit with
       | none => 0
       | some l => ((tokenSum (cleanOldEntries rl t).token_usage : ℤ) : ℚ)
           / (l : ℚ) * 100) := by
  refine ⟨?_, ?_, ?_, ?_⟩
  · simp [acquire, truthy]
  · simp [reportActualUsage, truthy]
  · cases h : rl.rpm_limit with
    | none => simp [getCurrentStats, h, truthy]
    | some l =>
      by_cases hl : l = 0
      · simp [getCurrentStats, h, hl, truthy]
      · simp [getCurrentStats, h, hl, truthy]
  · cases h : rl.tpm_limit with
    | none => simp [getCurrentStats, h, truthy]
    | some l =>
      by_cases hl : l = 0
      · simp [getCurrentStats, h, hl, truthy]
      · simp [getCurrentStats, h, hl, truthy]

/-! ## C10 -/

/-- C10: a limiter whose rpm_limit (resp. tpm_limit) is 0 behaves exactly
like one whose limit is None, because every check in the code is a
truthiness test: the post-states agree up to the stored limit field, no
sleep ever happens on that dimension, the utilization is 0, and
calculateWaitTime returns the same wait. -/
theorem zero_limit_eq_none (rl : RateLimiter) (t0 t1 now t : ℚ)
    (tok est : ℤ) :
    (acquire { rl with rpm_limit := some 0 } t0 t1).1
      = { (acquire { rl with rpm_limit := none } t0 t1).1 with
          rpm_limit := some 0 } ∧
    (acquire { rl with rpm_limit := some 0 } t0 t1).2 = 0 ∧
    (acquire { rl with rpm_limit := none } t0 t1).2 = 0 ∧
    (reportActualUsage { rl with tpm_limit := some 0 } now tok).1
      = { (reportActualUsage { rl with tpm_limit := none } now tok).1 with
          tpm_limit := some 0 } ∧
    (reportActualUsage { rl with tpm_limit := some 0 } now tok).2 = 0 ∧
    (reportActualUsage { rl with tpm_limit := none } now tok).2 = 0 ∧
    (calculateWaitTime { rl with rpm_limit := some 0 } t est).2
      = (calculateWaitTime { rl with rpm_limit := none } t est).2 ∧
    (calculateWaitTime { rl with tpm_limit := some 0 } t est).2
      = (calculateWaitTime { rl with tpm_limit := none } t est).2 ∧
    (getCurrentStats { rl with rpm_limit := some 0 } t).2.rpm_utilization = 0 ∧
    (getCurrentStats { rl with rpm_limit := none } t).2.rpm_utilization = 0 ∧
    (getCurrentStats { rl with tpm_limit := some 0 } t).2.tpm_utilization = 0 ∧
    (getCurrentStats { rl with tpm_limit := none } t).2.tpm_utilization = 0 := by
  refine ⟨?_, ?_, ?_, ?_, ?_, ?_, ?_, ?_, ?_, ?_, ?_, ?_⟩ <;>
    simp [acquire, reportActualUsage, calculateWaitTime, getCurrentStats,
      cleanOldEntries, truthy]

/-! ## C3 -/

/-- C3: acquire trims at the first clock reading, appends the second
(post-sleep) clock reading to the request log, touches the token log only
through the trim, preserves the configuration, sleeps only when the RPM
wait is positive (and then sleeps exactly the computed wait respecting the
RPM guard), and its request log and sleep are independent of tpm_limit. -/
theorem acquire_spec (rl : RateLimiter) (t0 t1 : ℚ) :
    (acquire rl t0 t1).1.request_times
      = (cleanOldEntries rl t0).request_times ++ [t1] ∧
    (acquire rl t0 t1).1.token_usage
      = rl.token_usage.dropWhile
          (fun q => decide (q.1 < t0 - rl.window_seconds)) ∧
    (acquire rl t0 t1).1.rpm_limit = rl.rpm_limit ∧
    (acquire rl t0 t1).1.tpm_limit = rl.tpm_limit ∧
    (acquire rl t0 t1).1.window_seconds = rl.window_seconds ∧
    (0 < (acquire rl t0 t1).2 →
      truthy rl.rpm_limit = true ∧
      rl.rpm_limit.getD 0 ≤ ((cleanOldEntries rl t0).request_times.length : ℤ) ∧
      (acquire rl t0 t1).2
        = (cleanOldEntries rl t0).request_times.headI
            + rl.window_seconds - t0 + 1/10) ∧
    (∀ tpm : Option ℤ,
      (acquire { rl with tpm_limit := tpm } t0 t1).1.request_times
        = (acquire rl t0 t1).1.request_times ∧
      (acquire { rl with tpm_limit := tpm } t0 t1).2 = (acquire rl t0 t1).2) := by
  refine ⟨rfl, rfl, rfl, rfl, rfl, ?_, ?_⟩
  · intro hpos
    by_cases hg : truthy rl.rpm_limit = true ∧
        rl.rpm_limit.getD 0 ≤ (((cleanOldEntries rl t0).request_times.length : ℤ)) 
    · refine ⟨hg.1, hg.2, ?_⟩
      show (if 0 < (if truthy rl.rpm_limit ∧
          rl.rpm_limit.getD 0 ≤ (((cleanOldEntries rl t0).request_times.length : ℤ))
          then (cleanOldEntries rl t0).request_times.headI
            + rl.window_seconds - t0 + 1/10 else 0) then _ else (0:ℚ)) = _
      rw [if_pos hg]
      split
      · rfl
      next hf =>
        exfalso
        have hz : (acquire rl t0 t1).2 = 0 := by
          simp only [acquire]
          rw [if_pos hg, if_neg hf]
        rw [hz] at hpos
        exact lt_irrefl 0 hpos
    · exfalso
      have : (acquire rl t0 t1).2 = 0 := by
        simp only [acquire]
        rw [if_neg hg]
        simp
      rw [this] at hpos
      exact lt_irrefl 0 hpos
  · intro tpm
    exact ⟨rfl, rfl⟩

/-- C3 witness: the characterization applied at a concrete saturated state
(limit 1, one fresh entry in the log, so the third conjunct fires with a
positive sleep). -/
theorem acquire_spec_witness :
    (acquire ⟨some 1, some 100, 60, [50], [(50, 7)]⟩ 55 110).2
      = 50 + 60 - 55 + 1/10 := by
  have h := (acquire_spec ⟨some 1, some 100, 60, [50], [(50, 7)]⟩ 55 110).2.2.2.2.2.1
  have hpos : (0:ℚ) < (acquire ⟨some 1, some 100, 60, [50], [(50, 7)]⟩ 55 110).2 := by
    norm_num [acquire, cleanOldEntries, List.dropWhile, truthy]
  have := h hpos
  rw [this.2.2]
  norm_num [cleanOldEntries, List.dropWhile]

end RateLimiterModel

namespace RateLimiterModel

/-! ## Walk lemmas -/

/-- If the accumulator is still short of the target but the whole log would
cover it, the walk breaks at some entry. -/
lemma tpmWalk_isSome {log : List (ℚ × ℤ)} {acc needed : ℤ}
    (hlt : acc < needed) (hle : needed ≤ acc + tokenSum log) :
    ∃ ts, tpmWalk log acc needed = some ts := by
  induction log generalizing acc with
  | nil =>
    exfalso
    rw [tokenSum] at hle
    simp only [List.map_nil, List.sum_nil, add_zero] at hle
    exact absurd (lt_of_lt_of_le hlt hle) (lt_irrefl _)
  | cons q rest ih =>
    rcases q with ⟨ts0, tok⟩
    by_cases h : needed ≤ acc + tok
    · exact ⟨ts0, by simp [tpmWalk, h]⟩
    · push_neg at h
      have hle' : needed ≤ acc + tok + tokenSum rest := by
        rw [tokenSum] at hle ⊢
        simp only [List.map_cons, List.sum_cons] at hle
        linarith
      obtain ⟨ts1, hts1⟩ := ih h hle'
      refine ⟨ts1, ?_⟩
      simp only [tpmWalk]
      rw [if_neg (not_le.2 h)]
      exact hts1

/-- A successful walk splits the log at the break entry: the target is
covered by the accumulator plus the tokens of the prefix up to and
including that entry. -/
lemma tpmWalk_eq_some_split {log : List (ℚ × ℤ)} {acc needed : ℤ} {ts : ℚ}
    (h : tpmWalk log acc needed = some ts) :
    ∃ pre x suf, log = pre ++ x :: suf ∧ x.1 = ts ∧
      needed ≤ acc + tokenSum pre + x.2 := by
  induction log generalizing acc with
  | nil => simp [tpmWalk] at h
  | cons q rest ih =>
    rcases q with ⟨ts0, tok⟩
    by_cases hb : needed ≤ acc + tok
    · have h0 : some ts0 = some ts := by
        simpa only [tpmWalk, if_pos hb] using h
      refine ⟨[], (ts0, tok), rest, by simp, ?_, ?_⟩
      · simpa using Option.some.inj h0
      · simpa [tokenSum] using hb
    · have h1 : tpmWalk rest (acc + tok) needed = some ts := by
        simpa only [tpmWalk, if_neg hb] using h
      obtain ⟨pre, x, suf, heq, hts, hsum⟩ := ih h1
      refine ⟨(ts0, tok) :: pre, x, suf, by rw [heq, List.cons_append], hts, ?_⟩
      rw [tokenSum] at hsum ⊢
      simp only [List.map_cons, List.sum_cons]
      linarith

/-! ## C6 -/

/-- C6: at both call sites of the walk the break is always taken.  For
_calculate_wait_time: whenever the TPM guard fires and the deficit does not
exceed the current token sum, the walk over the trimmed log returns an
entry.  For report_actual_usage: with a non-negative limit, whenever the
post-append sum exceeds the limit, the walk over the post-append log
returns an entry. -/
theorem tpmWalk_break_always_taken (rl : RateLimiter) (now : ℚ)
    (est tok T : ℤ) :
    (rl.tpm_limit = some T →
      T < tokenSum (cleanOldEntries rl now).token_usage + est →
      tokenSum (cleanOldEntries rl now).token_usage + est - T
        ≤ tokenSum (cleanOldEntries rl now).token_usage →
      ∃ ts, tpmWalk (cleanOldEntries rl now).token_usage 0
        (tokenSum (cleanOldEntries rl now).token_usage + est - T) = some ts) ∧
    (rl.tpm_limit = some T → 0 ≤ T →
      T < tokenSum ((cleanOldEntries rl now).token_usage ++ [(now, tok)]) →
      ∃ ts, tpmWalk ((cleanOldEntries rl now).token_usage ++ [(now, tok)]) 0
        (tokenSum ((cleanOldEntries rl now).token_usage ++ [(now, tok)]) - T)
        = some ts) := by
  constructor
  · intro _ hguard hdef
    exact tpmWalk_isSome (by linarith) (by linarith)
  · intro _ hT hguard
    exact tpmWalk_isSome (by linarith) (by linarith)

/-- C6 witness: both call sites at a concrete saturated log. -/
theorem tpmWalk_break_always_taken_witness :
    (∃ ts, tpmWalk (cleanOldEntries
        ⟨some 2, some 100, 60, [50], [(50, 60)]⟩ 55).token_usage 0
      (tokenSum (cleanOldEntries
        ⟨some 2, some 100, 60, [50], [(50, 60)]⟩ 55).token_usage + 50 - 100)
      = some ts) ∧
    (∃ ts, tpmWalk ((cleanOldEntries
        ⟨some 2, some 100, 60, [50], [(50, 60)]⟩ 55).token_usage
          ++ [((55:ℚ), (60:ℤ))]) 0
      (tokenSum ((cleanOldEntries
        ⟨some 2, some 100, 60, [50], [(50, 60)]⟩ 55).token_usage
          ++ [((55:ℚ), (60:ℤ))]) - 100) = some ts) := by
  have h := tpmWalk_break_always_taken
    ⟨some 2, some 100, 60, [50], [(50, 60)]⟩ 55 50 60 100
  constructor
  · exact h.1 rfl (by norm_num [cleanOldEntries, tokenSum, List.dropWhile])
      (by norm_num)
  · exact h.2 rfl (by norm_num)
      (by norm_num [cleanOldEntries, tokenSum, List.dropWhile])

/-! ## C9 -/

/-- Reachability of a limiter state: states produced from a freshly
constructed limiter (empty logs) by the operations of the code, under a
monotone clock; the rational component is the last clock reading (every
clock reading of a later operation is at or after it). -/
inductive Reachable : RateLimiter → ℚ → Prop
  | init (rpm tpm : Option ℤ) (w c : ℚ) :
      Reachable ⟨rpm, tpm, w, [], []⟩ c
  | acq {rl : RateLimiter} {c : ℚ} (t0 t1 : ℚ) :
      Reachable rl c → c ≤ t0 → t0 ≤ t1 →
      Reachable (acquire rl t0 t1).1 t1
  | report {rl : RateLimiter} {c : ℚ} (t : ℚ) (tok : ℤ) :
      Reachable rl c → c ≤ t →
      Reachable (reportActualUsage rl t tok).1 t
  | calcWait {rl : RateLimiter} {c : ℚ} (t : ℚ) (est : ℤ) :
      Reachable rl c → c ≤ t →
      Reachable (calculateWaitTime rl t est).1 t
  | stats {rl : RateLimiter} {c : ℚ} (t : ℚ) :
      Reachable rl c → c ≤ t →
      Reachable (getCurrentStats rl t).1 t

/-- C9: on every reachable state (monotone clock), both logs are sorted in
non-decreasing timestamp order, and every recorded timestamp is at or
before the last clock reading; entries enter only at the tail and leave
only from the head, which is what the induction steps verify. -/
theorem reachable_sorted {rl : RateLimiter} {c : ℚ} (h : Reachable rl c) :
    rl.request_times.Sorted (· ≤ ·) ∧
    (rl.token_usage.map Prod.fst).Sorted (· ≤ ·) ∧
    (∀ ts ∈ rl.request_times, ts ≤ c) ∧
    (∀ q ∈ rl.token_usage, q.1 ≤ c) := by
  induction h with
  | init rpm tpm w c => simp [List.Sorted]
  | @acq s c0 t0 t1 hr h0 h1 ih =>
    obtain ⟨ihs, iht, ihb, ihb'⟩ := ih
    have hsub : ∀ x ∈ (cleanOldEntries s t0).request_times,
        x ∈ s.request_times :=
      fun x hx => (List.dropWhile_sublist _).subset hx
    have hsub' : ∀ q ∈ (cleanOldEntries s t0).token_usage,
        q ∈ s.token_usage :=
      fun q hq => (List.dropWhile_sublist _).subset hq
    refine ⟨?_, ?_, ?_, ?_⟩
    · show ((cleanOldEntries s t0).request_times ++ [t1]).Sorted (· ≤ ·)
      rw [List.Sorted, List.pairwise_append]
      refine ⟨List.Pairwise.sublist (List.dropWhile_sublist _) ihs, by simp, ?_⟩
      intro a ha b hb
      rw [List.mem_singleton] at hb
      subst hb
      exact le_trans (ihb a (hsub a ha)) (le_trans h0 h1)
    · show (((cleanOldEntries s t0).token_usage).map Prod.fst).Sorted (· ≤ ·)
      exact List.Pairwise.sublist ((List.dropWhile_sublist _).map Prod.fst) iht
    · show ∀ ts ∈ (cleanOldEntries s t0).request_times ++ [t1], ts ≤ t1
      intro ts hts
      rcases List.mem_append.1 hts with hts | hts
      · exact le_trans (ihb ts (hsub ts hts)) (le_trans h0 h1)
      · rw [List.mem_singleton] at hts
        exact hts.le
    · intro q hq
      exact le_trans (ihb' q (hsub' q hq)) (le_trans h0 h1)
  | @report s c0 t tok hr h0 ih =>
    obtain ⟨ihs, iht, ihb, ihb'⟩ := ih
    have hsub : ∀ x ∈ (cleanOldEntries s t).request_times,
        x ∈ s.request_times :=
      fun x hx => (List.dropWhile_sublist _).subset hx
    have hsub' : ∀ q ∈ (cleanOldEntries s t).token_usage,
        q ∈ s.token_usage :=
      fun q hq => (List.dropWhile_sublist _).subset hq
    refine ⟨?_, ?_, ?_, ?_⟩
    · exact List.Pairwise.sublist (List.dropWhile_sublist _) ihs
    · show (((cleanOldEntries s t).token_usage
          ++ [(t, tok)]).map Prod.fst).Sorted (· ≤ ·)
      rw [List.map_append, List.Sorted, List.pairwise_append]
      refine ⟨List.Pairwise.sublist ((List.dropWhile_sublist _).map Prod.fst) iht,
        by simp, ?_⟩
      intro a ha b hb
      simp only [List.map_cons, List.map_nil, List.mem_singleton] at hb
      subst hb
      rw [List.mem_map] at ha
      obtain ⟨q, hq, rfl⟩ := ha
      exact le_trans (ihb' q (hsub' q hq)) h0
    · intro ts hts
      exact le_trans (ihb ts (hsub ts hts)) h0
    · show ∀ q ∈ (cleanOldEntries s t).token_usage ++ [(t, tok)], q.1 ≤ t
      intro q hq
      rcases List.mem_append.1 hq with hq | hq
      · exact le_trans (ihb' q (hsub' q hq)) h0
      · rw [List.mem_singleton] at hq
        subst hq
        exact le_rfl
  | @calcWait s c0 t est hr h0 ih =>
    obtain ⟨ihs, iht, ihb, ihb'⟩ := ih
    refine ⟨List.Pairwise.sublist (List.dropWhile_sublist _) ihs,
      List.Pairwise.sublist ((List.dropWhile_sublist _).map Prod.fst) iht,
      fun ts hts => le_trans (ihb ts ((List.dropWhile_sublist _).subset hts)) h0,
      fun q hq => le_trans (ihb' q ((List.dropWhile_sublist _).subset hq)) h0⟩
  | @stats s c0 t hr h0 ih =>
    obtain ⟨ihs, iht, ihb, ihb'⟩ := ih
    refine ⟨List.Pairwise.sublist (List.dropWhile_sublist _) ihs,
      List.Pairwise.sublist ((List.dropWhile_sublist _).map Prod.fst) iht,
      fun ts hts => le_trans (ihb ts ((List.dropWhile_sublist _).subset hts)) h0,
      fun q hq => le_trans (ihb' q ((List.dropWhile_sublist _).subset hq)) h0⟩

/-- C9 witness: a concrete reachable state (one acquire, one report) has
sorted logs bounded by the last clock reading. -/
theorem reachable_sorted_witness :
    (reportActualUsage (acquire ⟨some 2, some 100, 60, [], []⟩ 0 1).1
        2 30).1.request_times.Sorted (· ≤ ·) ∧
    ((reportActualUsage (acquire ⟨some 2, some 100, 60, [], []⟩ 0 1).1
        2 30).1.token_usage.map Prod.fst).Sorted (· ≤ ·) ∧
    (∀ ts ∈ (reportActualUsage (acquire ⟨some 2, some 100, 60, [], []⟩ 0 1).1
        2 30).1.request_times, ts ≤ 2) ∧
    (∀ q ∈ (reportActualUsage (acquire ⟨some 2, some 100, 60, [], []⟩ 0 1).1
        2 30).1.token_usage, q.1 ≤ 2) :=
  reachable_sorted
    (Reachable.report 2 30
      (Reachable.acq 0 1 (Reachable.init (some 2) (some 100) 60 0)
        le_rfl (by norm_num))
      (by norm_num))

end RateLimiterModel

namespace RateLimiterModel

/-! ## C5 -/

/-- C5 counterexample: a reachable state (one acquire at time 0, one report
at time 0, window 60) holds a request timestamp exactly at the cutoff of a
trim at time 60; the trim retains it, so the retained timestamp does not
satisfy the strict bound timestamp > now - windowSeconds. -/
theorem trim_strict_bound_counterexample :
    Reachable ⟨some 10, some 100, 60, [0], [(0, 5)]⟩ 0 ∧
    ¬ (∀ ts ∈ (cleanOldEntries ⟨some 10, some 100, 60, [0], [(0, 5)]⟩
          60).request_times,
        (60:ℚ) - (⟨some 10, some 100, 60, [0], [(0, 5)]⟩ :
          RateLimiter).window_seconds < ts) := by
  constructor
  · have h : (reportActualUsage
        (acquire ⟨some 10, some 100, 60, [], []⟩ 0 0).1 0 5).1
        = (⟨some 10, some 100, 60, [0], [(0, 5)]⟩ : RateLimiter) := by
      norm_num [acquire, reportActualUsage, cleanOldEntries, List.dropWhile,
        truthy, tokenSum, tpmWalk]
    exact h ▸ Reachable.report 0 5
      (Reachable.acq 0 0 (Reachable.init (some 10) (some 100) 60 0)
        le_rfl le_rfl) le_rfl
  · intro hall
    have h0 : (0:ℚ) ∈ (cleanOldEntries
        ⟨some 10, some 100, 60, [0], [(0, 5)]⟩ 60).request_times := by
      norm_num [cleanOldEntries, List.dropWhile]
    have := hall 0 h0
    norm_num at this

/-- C5 amended: immediately after a trim at time now, every timestamp in
either log satisfies the non-strict bound timestamp >= now - windowSeconds
(an entry exactly at the cutoff is retained), provided the logs are sorted
in non-decreasing timestamp order, as they are in every reachable state. -/
theorem trim_bound (rl : RateLimiter) (now : ℚ)
    (hreq : rl.request_times.Sorted (· ≤ ·))
    (htok : (rl.token_usage.map Prod.fst).Sorted (· ≤ ·)) :
    (∀ ts ∈ (cleanOldEntries rl now).request_times,
      now - rl.window_seconds ≤ ts) ∧
    (∀ q ∈ (cleanOldEntries rl now).token_usage,
      now - rl.window_seconds ≤ q.1) :=
  ⟨le_of_mem_dropWhile_sorted hreq, le_of_mem_dropWhile_fst_sorted htok⟩

/-- C5 amended witness: the bound at a concrete sorted state with one
expired, one boundary and one fresh entry. -/
theorem trim_bound_witness :
    (∀ ts ∈ (cleanOldEntries
        ⟨some 10, some 100, 60, [10, 40, 90], [(10, 5), (40, 7)]⟩
        100).request_times, (100:ℚ) - 60 ≤ ts) ∧
    (∀ q ∈ (cleanOldEntries
        ⟨some 10, some 100, 60, [10, 40, 90], [(10, 5), (40, 7)]⟩
        100).token_usage, (100:ℚ) - 60 ≤ q.1) :=
  trim_bound ⟨some 10, some 100, 60, [10, 40, 90], [(10, 5), (40, 7)]⟩ 100
    (by norm_num [List.Sorted, List.pairwise_cons])
    (by norm_num [List.Sorted, List.pairwise_cons])

end RateLimiterModel

namespace RateLimiterModel

/-! ## C1 -/

/-- Modelled from the spec text of computeWaitTime, for comparison with the
code: the RPM candidate (oldest request timestamp + window - now) is taken
when rpmLimit is set and requestCount >= rpmLimit; the TPM candidate (break
entry timestamp + window - now, from the head walk over the deficit) is
taken when tpmLimit is set and tokenSum + estimatedTokens > tpmLimit; an
untaken candidate contributes 0; the result is the maximum of the two
candidates floored at 0, plus 0.1 exactly when that maximum is positive. -/
def specWaitTime (rl : RateLimiter) (now : ℚ) (est : ℤ) : ℚ :=
  let rl' := cleanOldEntries rl now
  let rpmCand : ℚ :=
    if rl.rpm_limit.isSome ∧
        rl.rpm_limit.getD 0 ≤ (rl'.request_times.length : ℤ) then
      rl'.request_times.headI + rl.window_seconds - now
    else 0
  let tpmCand : ℚ :=
    if rl.tpm_limit.isSome ∧
        rl.tpm_limit.getD 0 < tokenSum rl'.token_usage + est then
      match tpmWalk rl'.token_usage 0
          (tokenSum rl'.token_usage + est - rl.tpm_limit.getD 0) with
      | some ts => ts + rl.window_seconds - now
      | none => 0
    else 0
  let m := max 0 (max rpmCand tpmCand)
  if 0 < m then m + 1/10 else m

/-- Folding the two guarded candidates through max, starting from 0, agrees
with taking the guarded candidates (0 when untaken), maxing them and
flooring at 0. -/
lemma spec_fold (gR gT : Prop) [Decidable gR] [Decidable gT] (a b : ℚ) :
    (if gT then max (if gR then max 0 a else 0) b
     else (if gR then max 0 a else 0))
      = max 0 (max (if gR then a else 0) (if gT then b else 0)) := by
  by_cases h1 : gR
  · by_cases h2 : gT
    · rw [if_pos h1, if_pos h2, if_pos h1, if_pos h2]
      exact max_assoc 0 a b
    · rw [if_neg h2, if_pos h1, if_pos h1, if_neg h2]
      rw [max_comm a 0, ← max_assoc, max_self]
  · by_cases h2 : gT
    · rw [if_pos h2, if_neg h1, if_neg h1, if_pos h2]
      rw [← max_assoc, max_self]
    · rw [if_neg h2, if_neg h1, if_neg h1, if_neg h2]
      simp

/-- Degenerate version of the previous lemma when the TPM candidate is
absent. -/
lemma spec_fold_none (gR : Prop) [Decidable gR] (a : ℚ) :
    (if gR then max 0 a else 0)
      = max 0 (max (if gR then a else 0) 0) := by
  by_cases h1 : gR
  · rw [if_pos h1, if_pos h1, max_comm a 0, ← max_assoc, max_self]
  · rw [if_neg h1, if_neg h1]
    simp

/-- C1: for limits that are positive when set (the configuration the spec
admits), _calculate_wait_time returns exactly the spec formula: the maximum
of the guarded RPM candidate and the guarded TPM candidate, floored at 0,
with 0.1 added exactly when that maximum is positive. -/
theorem calculateWaitTime_eq_specWaitTime (rl : RateLimiter) (now : ℚ)
    (est : ℤ)
    (hrpm : ∀ r, rl.rpm_limit = some r → 0 < r)
    (htpm : ∀ lim, rl.tpm_limit = some lim → 0 < lim) :
    (calculateWaitTime rl now est).2 = specWaitTime rl now est := by
  have hgr : (truthy rl.rpm_limit = true ∧
      rl.rpm_limit.getD 0
        ≤ ((cleanOldEntries rl now).request_times.length : ℤ))
      ↔ (rl.rpm_limit.isSome = true ∧
      rl.rpm_limit.getD 0
        ≤ ((cleanOldEntries rl now).request_times.length : ℤ)) := by
    cases hr : rl.rpm_limit with
    | none => simp [truthy]
    | some r => simp [truthy, bne_iff_ne, (hrpm r hr).ne']
  have hgt : (truthy rl.tpm_limit = true ∧
      rl.tpm_limit.getD 0
        < tokenSum (cleanOldEntries rl now).token_usage + est)
      ↔ (rl.tpm_limit.isSome = true ∧
      rl.tpm_limit.getD 0
        < tokenSum (cleanOldEntries rl now).token_usage + est) := by
    cases ht : rl.tpm_limit with
    | none => simp [truthy]
    | some lim => simp [truthy, bne_iff_ne, (htpm lim ht).ne']
  simp only [calculateWaitTime, specWaitTime]
  rcases hw : tpmWalk (cleanOldEntries rl now).token_usage 0
      (tokenSum (cleanOldEntries rl now).token_usage + est
        - rl.tpm_limit.getD 0) with _ | ts
  · simp only [hgr, hgt, ite_self]
    rw [spec_fold_none]
  · simp only [hgr, hgt]
    rw [spec_fold]

/-- C1 witness: the equality at a concrete saturated state with positive
limits (both guards fire there and the wait is positive). -/
theorem calculateWaitTime_eq_specWaitTime_witness :
    (calculateWaitTime ⟨some 1, some 100, 60, [50], [(50, 120)]⟩ 55 10).2
      = specWaitTime ⟨some 1, some 100, 60, [50], [(50, 120)]⟩ 55 10 :=
  calculateWaitTime_eq_specWaitTime ⟨some 1, some 100, 60, [50], [(50, 120)]⟩
    55 10 (fun r hr => by simp at hr; omega) (fun lim ht => by simp at ht; omega)

end RateLimiterModel

namespace RateLimiterModel

/-! ## C2 -/

/-- tokenSum distributes over append. -/
lemma tokenSum_append (l1 l2 : List (ℚ × ℤ)) :
    tokenSum (l1 ++ l2) = tokenSum l1 + tokenSum l2 := by
  simp [tokenSum]

/-- tokenSum of a cons. -/
lemma tokenSum_cons (a : ℚ × ℤ) (l : List (ℚ × ℤ)) :
    tokenSum (a :: l) = a.2 + tokenSum l := by
  simp [tokenSum]

/-- Filtering a log of non-negative token counts cannot increase the sum. -/
lemma tokenSum_filter_le {l : List (ℚ × ℤ)} (hnn : ∀ q ∈ l, 0 ≤ q.2)
    (p : ℚ × ℤ → Bool) : tokenSum (l.filter p) ≤ tokenSum l := by
  induction l with
  | nil => simp [tokenSum]
  | cons a t ih =>
    have ha := hnn a (List.mem_cons_self a t)
    have ih' := ih (fun q hq => hnn q (List.mem_cons_of_mem a hq))
    rw [List.filter_cons, tokenSum_cons]
    by_cases hp : p a
    · rw [if_pos hp, tokenSum_cons]
      linarith
    · rw [if_neg hp]
      linarith

/-- Token sum of the entries of a log still inside the window at time t:
the entries a trim at t would retain. -/
def windowedTokenSum (log : List (ℚ × ℤ)) (t W : ℚ) : ℤ :=
  tokenSum (log.filter (fun q => decide (t - W ≤ q.1)))

/-- The sleep duration of report_actual_usage, written out. -/
lemma reportSlept_eq (rl : RateLimiter) (now : ℚ) (tok : ℤ) :
    (reportActualUsage rl now tok).2 =
      (if truthy rl.tpm_limit = true then
        (if rl.tpm_limit.getD 0
            < tokenSum ((cleanOldEntries rl now).token_usage
                ++ [(now, tok)]) then
          (match tpmWalk ((cleanOldEntries rl now).token_usage
                ++ [(now, tok)]) 0
              (tokenSum ((cleanOldEntries rl now).token_usage
                ++ [(now, tok)]) - rl.tpm_limit.getD 0) with
           | some ts =>
              if 0 < ts + rl.window_seconds - now + 1/10
              then ts + rl.window_seconds - now + 1/10 else 0
           | none => 0)
         else 0)
       else 0) := rfl

/-- C2: with a positive tpm_limit and window, a sorted token log of
non-negative token counts recorded at or before now, and a non-negative
report, report_actual_usage first trims then appends (now, tokens); it
sleeps exactly when the resulting windowed token sum exceeds the limit; the
slept duration is the break entry timestamp + window - now + 0.1, where the
break entry is the first head-prefix of the log covering the overshoot; and
once that duration has elapsed the windowed token sum is back at or under
the limit. -/
theorem reportActualUsage_blocking (rl : RateLimiter) (now : ℚ)
    (tok T : ℤ)
    (hT : rl.tpm_limit = some T) (hTpos : 0 < T)
    (hW : 0 < rl.window_seconds)
    (hsorted : (rl.token_usage.map Prod.fst).Sorted (· ≤ ·))
    (hnn : ∀ q ∈ rl.token_usage, 0 ≤ q.2) (htokpos : 0 ≤ tok)
    (hpast : ∀ q ∈ rl.token_usage, q.1 ≤ now) :
    (reportActualUsage rl now tok).1.token_usage
      = (cleanOldEntries rl now).token_usage ++ [(now, tok)] ∧
    (0 < (reportActualUsage rl now tok).2 ↔
      T < tokenSum ((cleanOldEntries rl now).token_usage ++ [(now, tok)])) ∧
    (T < tokenSum ((cleanOldEntries rl now).token_usage ++ [(now, tok)]) →
      ∃ ts, tpmWalk ((cleanOldEntries rl now).token_usage ++ [(now, tok)]) 0
          (tokenSum ((cleanOldEntries rl now).token_usage ++ [(now, tok)])
            - T) = some ts ∧
        (reportActualUsage rl now tok).2
          = ts + rl.window_seconds - now + 1/10 ∧
        windowedTokenSum
          ((cleanOldEntries rl now).token_usage ++ [(now, tok)])
          (now + (reportActualUsage rl now tok).2)
          rl.window_seconds ≤ T) := by
  have htr : truthy rl.tpm_limit = true := by
    rw [hT]
    simp [truthy, bne_iff_ne]
    exact hTpos.ne'
  have hgetD : rl.tpm_limit.getD 0 = T := by rw [hT]; rfl
  have hmemL : ∀ q ∈ (cleanOldEntries rl now).token_usage,
      q ∈ rl.token_usage :=
    fun q hq => (List.dropWhile_sublist _).subset hq
  have hnnNew : ∀ q ∈ (cleanOldEntries rl now).token_usage ++ [(now, tok)],
      0 ≤ q.2 := by
    intro q hq
    rcases List.mem_append.1 hq with hq | hq
    · exact hnn q (hmemL q hq)
    · rw [List.mem_singleton] at hq
      subst hq
      exact htokpos
  have hboundNew : ∀ q ∈ (cleanOldEntries rl now).token_usage ++ [(now, tok)],
      now - rl.window_seconds ≤ q.1 := by
    intro q hq
    rcases List.mem_append.1 hq with hq | hq
    · exact le_of_mem_dropWhile_fst_sorted hsorted q hq
    · rw [List.mem_singleton] at hq
      subst hq
      linarith
  have hsortedNew :
      (((cleanOldEntries rl now).token_usage ++ [(now, tok)]).map
        Prod.fst).Sorted (· ≤ ·) := by
    rw [List.map_append, List.Sorted, List.pairwise_append]
    refine ⟨List.Pairwise.sublist ((List.dropWhile_sublist _).map Prod.fst)
      hsorted, by simp, ?_⟩
    intro a ha b hb
    simp only [List.map_cons, List.map_nil, List.mem_singleton] at hb
    subst hb
    rw [List.mem_map] at ha
    obtain ⟨q, hq, rfl⟩ := ha
    exact hpast q (hmemL q hq)
  refine ⟨rfl, ?_, ?_⟩
  all_goals {
    by_cases hover : T < tokenSum
        ((cleanOldEntries rl now).token_usage ++ [(now, tok)])
    case neg =>
      have hzero : (reportActualUsage rl now tok).2 = 0 := by
        rw [reportSlept_eq, if_pos htr, hgetD, if_neg hover]
      first
      | · rw [hzero]
          exact ⟨fun h => absurd h (lt_irrefl 0), fun h => absurd h hover⟩
      | · intro h
          exact absurd h hover
    case pos =>
      obtain ⟨ts, hts⟩ :=
        @tpmWalk_isSome ((cleanOldEntries rl now).token_usage ++ [(now, tok)])
          0 (tokenSum
            ((cleanOldEntries rl now).token_usage ++ [(now, tok)]) - T)
          (by linarith) (by linarith)
      obtain ⟨pre, x, suf, hdecomp, hxts, hcover⟩ := tpmWalk_eq_some_split hts
      have hxmem : x ∈ (cleanOldEntries rl now).token_usage ++ [(now, tok)] := by
        rw [hdecomp]
        exact List.mem_append.2 (Or.inr (List.mem_cons_self _ _))
      have hx1 : now - rl.window_seconds ≤ x.1 := hboundNew x hxmem
      have hwpos : 0 < ts + rl.window_seconds - now + 1/10 := by
        rw [← hxts]
        linarith
      have hslept : (reportActualUsage rl now tok).2
          = ts + rl.window_seconds - now + 1/10 := by
        rw [reportSlept_eq, if_pos htr, hgetD, if_pos hover, hts]
        show (if 0 < ts + rl.window_seconds - now + 1/10
          then ts + rl.window_seconds - now + 1/10 else 0) = _
        rw [if_pos hwpos]
      first
      | · exact ⟨fun _ => hover, fun _ => by rw [hslept]; exact hwpos⟩
      | · intro _
          refine ⟨ts, hts, hslept, ?_⟩
          have hpre : ∀ q ∈ pre, q.1 ≤ x.1 := by
            intro q hq
            rw [hdecomp, List.map_append, List.map_cons, List.Sorted,
              List.pairwise_append] at hsortedNew
            exact hsortedNew.2.2 q.1 (List.mem_map_of_mem Prod.fst hq) x.1
              (List.mem_cons_self _ _)
          have hfuneq :
              (fun q : ℚ × ℤ => decide (now
                  + (ts + rl.window_seconds - now + 1/10)
                  - rl.window_seconds ≤ q.1))
                = (fun q : ℚ × ℤ => decide (ts + 1/10 ≤ q.1)) := by
            funext q
            rw [decide_eq_decide]
            constructor <;> intro h <;> linarith
          rw [windowedTokenSum, hslept, hfuneq, hdecomp, List.filter_append,
            List.filter_cons]
          have hxfail : ¬ (decide (ts + 1/10 ≤ x.1) = true) := by
            simp only [decide_eq_true_eq]
            rw [hxts]
            intro h
            linarith
          rw [if_neg hxfail]
          have hprefail : pre.filter
              (fun q : ℚ × ℤ => decide (ts + 1/10 ≤ q.1)) = [] := by
            rw [List.filter_eq_nil_iff]
            intro q hq
            simp only [decide_eq_true_eq]
            have h1 := hpre q hq
            rw [hxts] at h1
            intro h
            linarith
          rw [hprefail, List.nil_append]
          have hsufnn : ∀ q ∈ suf, 0 ≤ q.2 := by
            intro q hq
            refine hnnNew q ?_
            rw [hdecomp]
            exact List.mem_append.2 (Or.inr (List.mem_cons_of_mem _ hq))
          have hsumdecomp : tokenSum
              ((cleanOldEntries rl now).token_usage ++ [(now, tok)])
              = tokenSum pre + (x.2 + tokenSum suf) := by
            rw [hdecomp, tokenSum_append, tokenSum_cons]
          have hfle := tokenSum_filter_le hsufnn
            (fun q : ℚ × ℤ => decide (ts + 1/10 ≤ q.1))
          linarith
  }

/-- C2 witness: at a concrete over-budget report the call sleeps. -/
theorem reportActualUsage_blocking_witness :
    0 < (reportActualUsage ⟨some 2, some 100, 60, [], [(50, 60)]⟩ 55 60).2 :=
  ((reportActualUsage_blocking ⟨some 2, some 100, 60, [], [(50, 60)]⟩ 55 60
    100 rfl (by norm_num) (by norm_num) (by simp) (by norm_num) (by norm_num)
    (by norm_num)).2.1).2
    (by norm_num [cleanOldEntries, tokenSum, List.dropWhile])

end RateLimiterModel
